import Mathlib

/-!
Shallow embedding of the ByteBuster stream-inspection engine
(`src/app/framing.rs`, `src/app/state.rs`, `src/app/suspects.rs`, and the
message-history maintenance loop of `src/main.rs`), together with theorems
settling the specification claims about it.

Bytes are modelled as `Nat` (the source only ever compares and copies them),
byte buffers and messages as `List Nat`, and Rust strings as `List Char`.
-/

namespace ByteBuster

/-! ## Framing (`src/app/framing.rs`)

`frame_messages` is a `loop` in Rust; it is embedded as a single-iteration
step function `frameStep` plus a fuel-indexed iteration `frameLoop`
(`none` = the fuel ran out before the loop broke).  `frame_messages` runs the
loop with fuel `buffer.length + 1`, which is shown below to suffice for every
configuration on which the Rust loop terminates at all. -/

/-- First index at which `pat` occurs as a contiguous sub-sequence of `buf`:
`buf.windows(pat.len()).position(|w| w == pat)` in the source (the source only
calls this with a non-empty `pat`). -/
def findSubseq (pat : List Nat) : List Nat → Option Nat
  | [] => if pat = [] then some 0 else none
  | b :: rest =>
    if pat.isPrefixOf (b :: rest) then some 0
    else (findSubseq pat rest).map (· + 1)

/-- The `start_pos` local of `frame_messages`: index 0 when the start
delimiter is empty, else the first occurrence of the start delimiter. -/
def startPos (buffer startD : List Nat) : Option Nat :=
  if startD = [] then some 0 else findSubseq startD buffer

/-- The `end_pos` local of `frame_messages`: the current buffer end when the
end delimiter is empty, else the first occurrence of the end delimiter at or
after `after_start`. -/
def endPos (buffer endD : List Nat) (after_start : Nat) : Option Nat :=
  if endD = [] then some buffer.length
  else (findSubseq endD (buffer.drop after_start)).map (· + after_start)

/-- One iteration of the `loop` in `frame_messages`: `none` means the
iteration hits a `break`; `some (msg, buffer')` means it pushes `msg` and
drains the buffer down to `buffer'`. -/
def frameStep (buffer startD endD : List Nat) : Option (List Nat × List Nat) :=
  match startPos buffer startD with
  | none => none
  | some s =>
    let after_start := s + startD.length
    if after_start > buffer.length then none
    else
      match endPos buffer endD after_start with
      | none => none
      | some epos =>
        let msg_end := epos + endD.length
        if msg_end ≤ buffer.length then
          some ((buffer.take msg_end).drop s, buffer.drop msg_end)
        else none

/-- The `loop` of `frame_messages`, indexed by fuel; `none` means the fuel was
exhausted before the loop hit a `break`. -/
def frameLoop : Nat → List Nat → List Nat → List Nat → Option (List (List Nat) × List Nat)
  | 0, _, _, _ => none
  | n + 1, buffer, startD, endD =>
    match frameStep buffer startD endD with
    | none => some ([], buffer)
    | some (m, buffer') => (frameLoop n buffer' startD endD).map (fun p => (m :: p.1, p.2))

/-- `frame_messages` of `src/app/framing.rs`, run with fuel `buffer.length + 1`
(shown sufficient whenever the Rust loop terminates): the emitted messages
together with the drained buffer, or `none` when the loop diverges. -/
def frame_messages (buffer startD endD : List Nat) : Option (List (List Nat) × List Nat) :=
  frameLoop (buffer.length + 1) buffer startD endD

/-- Repeated use of the framer from the pump loop in `ByteBusterApp::update`:
append each chunk to the pending buffer in turn and run `frame_messages` to
completion after each append, accumulating the emitted messages in order. -/
def processChunks (startD endD : List Nat) : List (List Nat) → List Nat → Option (List (List Nat) × List Nat)
  | [], buf => some ([], buf)
  | ch :: rest, buf =>
    match frame_messages (buf ++ ch) startD endD with
    | none => none
    | some (ms, buf') => (processChunks startD endD rest buf').map (fun p => (ms ++ p.1, p.2))

/-! ### Basic facts about `findSubseq` -/

theorem findSubseq_bound {pat buf : List Nat} {p : Nat} (h : findSubseq pat buf = some p) :
    p + pat.length ≤ buf.length := by
  induction buf generalizing p with
  | nil =>
    by_cases hp : pat = [] <;> simp [findSubseq, hp] at h
    simp [h.symm, hp]
  | cons b rest ih =>
    by_cases hpre : pat.isPrefixOf (b :: rest)
    · simp [findSubseq, hpre] at h
      have := ( List.isPrefixOf_iff_prefix.mp hpre).length_le
      omega
    · simp [findSubseq, hpre] at h
      obtain ⟨q, hq, rfl⟩ := h
      have := ih hq
      simp
      omega

theorem findSubseq_matches {pat buf : List Nat} {p : Nat} (h : findSubseq pat buf = some p) :
    pat <+: buf.drop p := by
  induction buf generalizing p with
  | nil =>
    by_cases hp : pat = [] <;> simp [findSubseq, hp] at h
    simp [h.symm, hp]
  | cons b rest ih =>
    by_cases hpre : pat.isPrefixOf (b :: rest)
    · simp [findSubseq, hpre] at h
      subst h
      simpa using List.isPrefixOf_iff_prefix.mp hpre
    · simp [findSubseq, hpre] at h
      obtain ⟨q, hq, rfl⟩ := h
      simpa using ih hq

theorem findSubseq_append {pat buf c : List Nat} {p : Nat} (hpat : pat ≠ [])
    (h : findSubseq pat buf = some p) : findSubseq pat (buf ++ c) = some p := by
  induction buf generalizing p with
  | nil => simp [findSubseq, hpat] at h
  | cons b rest ih =>
    by_cases hpre : pat.isPrefixOf (b :: rest)
    · simp [findSubseq, hpre] at h
      have hpre' : pat.isPrefixOf ((b :: rest) ++ c) := by
        rw [ List.isPrefixOf_iff_prefix] at hpre ⊢
        exact hpre.trans (List.prefix_append _ _)
      simp [findSubseq, hpre', h.symm]
      exact List.isPrefixOf_iff_prefix.mp hpre'
    · simp [findSubseq, hpre] at h
      obtain ⟨q, hq, rfl⟩ := h
      have hlen : pat.length ≤ (b :: rest).length := by
        have := findSubseq_bound hq
        simp
        omega
      have hpre' : ¬ pat.isPrefixOf ((b :: rest) ++ c) := by
        intro hcon
        apply hpre
        rw [ List.isPrefixOf_iff_prefix] at hcon ⊢
        rw [List.prefix_iff_eq_take] at hcon ⊢
        rwa [List.take_append_of_le_length hlen] at hcon
      simp only [List.cons_append, findSubseq]
      rw [List.cons_append] at hpre'
      simp [hpre', ih hq]

/-! ### Facts about a single loop iteration -/

theorem frameStep_some_elim {b sD eD m b' : List Nat}
    (h : frameStep b sD eD = some (m, b')) :
    ∃ s epos, startPos b sD = some s ∧ s + sD.length ≤ b.length ∧
      endPos b eD (s + sD.length) = some epos ∧ epos + eD.length ≤ b.length ∧
      m = (b.take (epos + eD.length)).drop s ∧ b' = b.drop (epos + eD.length) := by
  unfold frameStep at h
  match hs : startPos b sD with
  | none => rw [hs] at h; simp at h
  | some s =>
    rw [hs] at h
    simp only at h
    by_cases hlen : s + sD.length > b.length
    · simp [hlen] at h
    · simp only [hlen, if_false] at h
      match he : endPos b eD (s + sD.length) with
      | none => rw [he] at h; simp at h
      | some epos =>
        rw [he] at h
        simp only at h
        by_cases hme : epos + eD.length ≤ b.length
        · simp only [hme, if_true, Option.some.injEq, Prod.mk.injEq] at h
          exact ⟨s, epos, rfl, by omega, he, hme, h.1.symm, h.2.symm⟩
        · simp [hme] at h

theorem frameStep_some_intro {b sD eD : List Nat} {s epos : Nat}
    (hs : startPos b sD = some s) (hlen : s + sD.length ≤ b.length)
    (he : endPos b eD (s + sD.length) = some epos) (hme : epos + eD.length ≤ b.length) :
    frameStep b sD eD = some ((b.take (epos + eD.length)).drop s, b.drop (epos + eD.length)) := by
  unfold frameStep
  rw [hs]
  simp only [show ¬ s + sD.length > b.length by omega, if_false]
  rw [he]
  simp [hme]

theorem frameStep_shrink {b sD eD m b' : List Nat} (heD : eD ≠ [])
    (h : frameStep b sD eD = some (m, b')) : b'.length < b.length := by
  obtain ⟨s, epos, _, _, _, hme, _, hb'⟩ := frameStep_some_elim h
  have : eD.length ≠ 0 := fun hc => heD (List.length_eq_zero.mp hc)
  subst hb'
  simp [List.length_drop]
  omega

theorem frameStep_nil {sD eD : List Nat} (heD : eD ≠ []) : frameStep [] sD eD = none := by
  match h : frameStep [] sD eD with
  | none => rfl
  | some (m, b') =>
    have := frameStep_shrink heD h
    simp at this

/-! ### Facts about the loop -/

theorem frameLoop_mono {n m : Nat} {b sD eD : List Nat} {r : List (List Nat) × List Nat}
    (h : frameLoop n b sD eD = some r) (hnm : n ≤ m) : frameLoop m b sD eD = some r := by
  induction n generalizing b m r with
  | zero => simp [frameLoop] at h
  | succ n ih =>
    match m, hnm with
    | m + 1, hnm =>
      cases hst : frameStep b sD eD with
      | none => simp only [frameLoop, hst] at h ⊢; exact h
      | some p =>
        obtain ⟨msg, b'⟩ := p
        simp only [frameLoop, hst, Option.map_eq_some'] at h ⊢
        obtain ⟨q, hq, hqe⟩ := h
        exact ⟨q, ih hq (by omega), hqe⟩

theorem frameLoop_stop {n : Nat} {b sD eD : List Nat} {ms : List (List Nat)} {r : List Nat}
    (h : frameLoop n b sD eD = some (ms, r)) : frameStep r sD eD = none := by
  induction n generalizing b ms with
  | zero => simp [frameLoop] at h
  | succ n ih =>
    cases hst : frameStep b sD eD with
    | none =>
      simp only [frameLoop, hst, Option.some.injEq, Prod.mk.injEq] at h
      rw [← h.2]
      exact hst
    | some p =>
      obtain ⟨msg, b'⟩ := p
      simp only [frameLoop, hst, Option.map_eq_some'] at h
      obtain ⟨⟨ms1, r1⟩, hq, hqe⟩ := h
      have hr1 : r1 = r := congrArg Prod.snd hqe
      subst hr1
      exact ih hq

theorem frameLoop_suff_aux {sD eD : List Nat} (heD : eD ≠ []) :
    ∀ k (b : List Nat), b.length ≤ k → ∃ r, frameLoop (b.length + 1) b sD eD = some r := by
  intro k
  induction k with
  | zero =>
    intro b hb
    have hb0 : b = [] := List.length_eq_zero.mp (by omega)
    subst hb0
    exact ⟨([], []), by simp [frameLoop, frameStep_nil heD]⟩
  | succ k ih =>
    intro b hb
    cases hst : frameStep b sD eD with
    | none => exact ⟨([], b), by simp only [frameLoop, hst]⟩
    | some p =>
      obtain ⟨m, b'⟩ := p
      have hlt : b'.length < b.length := frameStep_shrink heD hst
      obtain ⟨r, hr⟩ := ih b' (by omega)
      have hr2 : frameLoop b.length b' sD eD = some r := frameLoop_mono hr (by omega)
      exact ⟨(m :: r.1, r.2), by simp only [frameLoop, hst, hr2, Option.map_some']⟩

theorem frame_messages_total {b sD eD : List Nat} (heD : eD ≠ []) :
    ∃ r, frame_messages b sD eD = some r :=
  frameLoop_suff_aux heD b.length b le_rfl

/-! ### The divergent configuration: both delimiters empty -/

theorem frameStep_empty_delims (b : List Nat) : frameStep b [] [] = some (b, []) := by
  unfold frameStep startPos endPos
  simp

theorem frameLoop_nil_empty_delims : ∀ n, frameLoop n ([] : List Nat) [] [] = none := by
  intro n
  induction n with
  | zero => rfl
  | succ n ih => simp [frameLoop, frameStep_empty_delims, ih]

theorem frameLoop_empty_delims (n : Nat) (b : List Nat) : frameLoop n b [] [] = none := by
  cases n with
  | zero => rfl
  | succ n => simp [frameLoop, frameStep_empty_delims, frameLoop_nil_empty_delims]

/-! ### Appending bytes preserves already-extractable frames (non-empty end delimiter) -/

theorem frameStep_append {b c sD eD m b' : List Nat} (heD : eD ≠ [])
    (h : frameStep b sD eD = some (m, b')) :
    frameStep (b ++ c) sD eD = some (m, b' ++ c) := by
  obtain ⟨s, epos, hs, hlen, he, hme, hm, hb'⟩ := frameStep_some_elim h
  have hs' : startPos (b ++ c) sD = some s := by
    by_cases hsd : sD = []
    · simp only [startPos, hsd, if_true] at hs ⊢
      exact hs
    · simp only [startPos, hsd, if_false] at hs ⊢
      exact findSubseq_append hsd hs
  have hlen' : s + sD.length ≤ (b ++ c).length := by
    simp only [List.length_append]
    omega
  have he' : endPos (b ++ c) eD (s + sD.length) = some epos := by
    simp only [endPos, heD, if_false] at he ⊢
    obtain ⟨q, hq, hqe⟩ := Option.map_eq_some'.mp he
    rw [List.drop_append_of_le_length hlen, findSubseq_append heD hq]
    simp [hqe]
  have hme' : epos + eD.length ≤ (b ++ c).length := by
    simp only [List.length_append]
    omega
  rw [frameStep_some_intro hs' hlen' he' hme', List.take_append_of_le_length hme,
    List.drop_append_of_le_length hme, ← hm, ← hb']

theorem frame_messages_append_aux {sD eD : List Nat} (heD : eD ≠ []) :
    ∀ k (b : List Nat), b.length ≤ k → ∀ (c : List Nat) ms r ms' r',
      frame_messages b sD eD = some (ms, r) →
      frame_messages (r ++ c) sD eD = some (ms', r') →
      frame_messages (b ++ c) sD eD = some (ms ++ ms', r') := by
  intro k
  induction k with
  | zero =>
    intro b hb c ms r ms' r' h1 h2
    have hb0 : b = [] := List.length_eq_zero.mp (by omega)
    subst hb0
    have hstep : frameStep [] sD eD = none := frameStep_nil heD
    simp only [frame_messages, frameLoop, hstep, Option.some.injEq, Prod.mk.injEq,
      List.length_nil] at h1
    obtain ⟨h1a, h1b⟩ := h1
    subst h1a
    subst h1b
    simpa using h2
  | succ k ih =>
    intro b hb c ms r ms' r' h1 h2
    cases hst : frameStep b sD eD with
    | none =>
      simp only [frame_messages, frameLoop, hst, Option.some.injEq, Prod.mk.injEq] at h1
      obtain ⟨h1a, h1b⟩ := h1
      subst h1a
      subst h1b
      simpa using h2
    | some p =>
      obtain ⟨m, b₁⟩ := p
      have hlt : b₁.length < b.length := frameStep_shrink heD hst
      simp only [frame_messages, frameLoop, hst, Option.map_eq_some'] at h1
      obtain ⟨⟨ms1, r1⟩, hq, hqe⟩ := h1
      have hms : ms = m :: ms1 := (congrArg Prod.fst hqe).symm
      have hr : r = r1 := (congrArg Prod.snd hqe).symm
      subst hms
      rw [hr] at h2
      obtain ⟨p₀, hp₀⟩ := @frame_messages_total b₁ sD eD heD
      have hp₀' : frameLoop (b₁.length + 1) b₁ sD eD = some p₀ := hp₀
      have hmono : frameLoop b.length b₁ sD eD = some p₀ := frameLoop_mono hp₀' (by omega)
      rw [hmono] at hq
      have hp : p₀ = (ms1, r1) := Option.some.inj hq
      rw [hp] at hp₀
      have hbc : frame_messages (b₁ ++ c) sD eD = some (ms1 ++ ms', r') :=
        ih b₁ (by omega) c ms1 r1 ms' r' hp₀ h2
      have hstep' : frameStep (b ++ c) sD eD = some (m, b₁ ++ c) := frameStep_append heD hst
      have hfuel : frameLoop ((b₁ ++ c).length + 1) (b₁ ++ c) sD eD = some (ms1 ++ ms', r') := hbc
      have hfuel2 : frameLoop (b ++ c).length (b₁ ++ c) sD eD = some (ms1 ++ ms', r') :=
        frameLoop_mono hfuel (by simp only [List.length_append]; omega)
      show frameLoop ((b ++ c).length + 1) (b ++ c) sD eD = some ((m :: ms1) ++ ms', r')
      simp only [frameLoop, hstep', hfuel2, Option.map_some', List.cons_append]

theorem frame_messages_append {b c sD eD : List Nat} {ms ms' : List (List Nat)} {r r' : List Nat}
    (heD : eD ≠ []) (h1 : frame_messages b sD eD = some (ms, r))
    (h2 : frame_messages (r ++ c) sD eD = some (ms', r')) :
    frame_messages (b ++ c) sD eD = some (ms ++ ms', r') :=
  frame_messages_append_aux heD b.length b le_rfl c ms r ms' r' h1 h2

theorem processChunks_eq_single_aux {sD eD : List Nat} (heD : eD ≠ []) :
    ∀ (chunks : List (List Nat)) (buf : List Nat), frameStep buf sD eD = none →
      processChunks sD eD chunks buf = frame_messages (buf ++ chunks.flatten) sD eD := by
  intro chunks
  induction chunks with
  | nil =>
    intro buf hbuf
    simp only [processChunks, List.flatten_nil, List.append_nil, frame_messages, frameLoop, hbuf]
  | cons ch rest ih =>
    intro buf hbuf
    obtain ⟨⟨ms1, r1⟩, h1⟩ := @frame_messages_total (buf ++ ch) sD eD heD
    have hstop : frameStep r1 sD eD = none := frameLoop_stop h1
    obtain ⟨⟨ms2, r2⟩, h2⟩ := @frame_messages_total (r1 ++ rest.flatten) sD eD heD
    have hall : frame_messages ((buf ++ ch) ++ rest.flatten) sD eD = some (ms1 ++ ms2, r2) :=
      frame_messages_append heD h1 h2
    rw [show (buf ++ ch) ++ rest.flatten = buf ++ (ch :: rest).flatten by
      simp [List.flatten_cons, List.append_assoc]] at hall
    simp only [processChunks, h1, ih r1 hstop, h2, Option.map_some', hall]

/-! ### Every extracted frame carries both delimiters (both non-empty) -/

theorem frameStep_delimiters {b sD eD m b' : List Nat} (hsD : sD ≠ []) (heD : eD ≠ [])
    (h : frameStep b sD eD = some (m, b')) : sD <+: m ∧ eD <:+ m := by
  obtain ⟨s, epos, hs, hlen, he, hme, hm, _⟩ := frameStep_some_elim h
  simp only [startPos, hsD, if_false] at hs
  have hsm : sD <+: b.drop s := findSubseq_matches hs
  simp only [endPos, heD, if_false] at he
  obtain ⟨q, hq, hqe⟩ := Option.map_eq_some'.mp he
  have hem : eD <+: (b.drop (s + sD.length)).drop q := findSubseq_matches hq
  rw [List.drop_drop, show s + sD.length + q = epos by omega] at hem
  have hqb := findSubseq_bound hq
  rw [List.length_drop] at hqb
  have hsle : s + sD.length ≤ epos := by omega
  have hmlen : m.length = epos + eD.length - s := by
    rw [hm, List.length_drop, List.length_take]
    omega
  constructor
  · rw [List.prefix_iff_eq_take] at hsm ⊢
    rw [hm, List.drop_take, List.take_take]
    rw [show min sD.length (epos + eD.length - s) = sD.length by omega]
    exact hsm
  · rw [List.suffix_iff_eq_drop, hmlen, hm, List.drop_drop]
    rw [show s + (epos + eD.length - s - eD.length) = epos by omega]
    rw [List.drop_take]
    rw [show epos + eD.length - epos = eD.length by omega]
    rw [List.prefix_iff_eq_take] at hem
    exact hem

theorem frameLoop_delimiters {n : Nat} {b sD eD : List Nat} {ms : List (List Nat)} {r : List Nat}
    (hsD : sD ≠ []) (heD : eD ≠ []) (h : frameLoop n b sD eD = some (ms, r)) :
    ∀ m ∈ ms, sD <+: m ∧ eD <:+ m := by
  induction n generalizing b ms with
  | zero => simp [frameLoop] at h
  | succ n ih =>
    cases hst : frameStep b sD eD with
    | none =>
      simp only [frameLoop, hst, Option.some.injEq, Prod.mk.injEq] at h
      rw [← h.1]
      intro m hm
      simp at hm
    | some p =>
      obtain ⟨m0, b₁⟩ := p
      simp only [frameLoop, hst, Option.map_eq_some'] at h
      obtain ⟨⟨ms1, r1⟩, hq, hqe⟩ := h
      have hms : ms = m0 :: ms1 := (congrArg Prod.fst hqe).symm
      have hr1 : r1 = r := congrArg Prod.snd hqe
      subst hms
      rw [hr1] at hq
      intro m hm
      rcases List.mem_cons.mp hm with hm0 | hmr
      · subst hm0
        exact frameStep_delimiters hsD heD hst
      · exact ih hq m hmr

/-! ## Claim theorems about framing -/

/-- C2 (code bug): the claim states that `frame_messages` terminates with a
finite sequence of messages for every buffer and every delimiter pair,
including empty delimiters.  The code does not: when both delimiters are
empty, every iteration matches the start at index 0 and the end at the
current buffer end, pushes the (eventually empty) slice and drains nothing,
so the loop never reaches a `break` — no amount of fuel makes the embedded
loop return.  With any other delimiter pair the spec's totality claim does
hold (`frame_messages_total` and `frameLoop_suff_aux` above). -/
theorem frame_messages_diverges_on_empty_delimiters :
    (∀ n buffer, frameLoop n buffer [] [] = none) ∧ frame_messages [] [] [] = none :=
  ⟨frameLoop_empty_delims, frameLoop_empty_delims 1 []⟩

/-- C3 (counterexample): with start delimiter `AA` and an *empty* end
delimiter, feeding `AA 01` then `02` emits the message `AA 01`, while feeding
the concatenation `AA 01 02` at once emits `AA 01 02`: chunk boundaries are
observable, so the claim fails for this delimiter pair. -/
theorem chunked_framing_cex :
    (processChunks [170] [] [[170, 1], [2]] []).map Prod.fst ≠
      (frame_messages [170, 1, 2] [170] []).map Prod.fst ∧
    processChunks [170] [] [[170, 1], [2]] [] = some ([[170, 1]], [2]) ∧
    frame_messages [170, 1, 2] [170] [] = some ([[170, 1, 2]], []) := by
  refine ⟨?_, ?_, ?_⟩ <;> decide

/-- C3 (amended): whenever the end delimiter is non-empty (the start
delimiter may be anything, including empty), appending chunks one at a time
and running `frame_messages` to completion after each append emits exactly
the messages of a single run on the concatenation, in the same order, and
leaves the same residual buffer. -/
theorem chunked_framing_eq_single (sD eD : List Nat) (chunks : List (List Nat))
    (heD : eD ≠ []) :
    processChunks sD eD chunks [] = frame_messages chunks.flatten sD eD := by
  have h := @processChunks_eq_single_aux sD eD heD chunks [] (@frameStep_nil sD eD heD)
  simpa using h

theorem chunked_framing_eq_single_witness :
    ([13, 10] : List Nat) ≠ [] ∧
    processChunks [170, 85] [13, 10] [[170, 85, 1], [13, 10]] [] =
      frame_messages [170, 85, 1, 13, 10] [170, 85] [13, 10] :=
  ⟨by decide, chunked_framing_eq_single [170, 85] [13, 10] [[170, 85, 1], [13, 10]] (by decide)⟩

/-- C4 (confirmed): when both delimiters are non-empty, every message emitted
by `frame_messages` begins with exactly the start delimiter bytes and ends
with exactly the end delimiter bytes. -/
theorem frame_messages_delimiter_inclusion {b sD eD : List Nat}
    {ms : List (List Nat)} {r : List Nat} (hsD : sD ≠ []) (heD : eD ≠ [])
    (h : frame_messages b sD eD = some (ms, r)) :
    ∀ m ∈ ms, sD <+: m ∧ eD <:+ m :=
  frameLoop_delimiters hsD heD h

theorem frame_messages_delimiter_inclusion_witness :
    ([170, 85] : List Nat) <+: [170, 85, 1, 13, 10] ∧
      ([13, 10] : List Nat) <:+ [170, 85, 1, 13, 10] :=
  frame_messages_delimiter_inclusion (by decide) (by decide)
    (show frame_messages [170, 85, 1, 13, 10] [170, 85] [13, 10] =
      some ([[170, 85, 1, 13, 10]], []) by decide)
    [170, 85, 1, 13, 10] (by decide)

/-- C5 (confirmed): if a run of `frame_messages` returns (messages, buffer),
then running `frame_messages` again on that buffer with the same delimiters
and no intervening appends emits zero messages and leaves the buffer
unchanged — the residual buffer is already minimal. -/
theorem frame_messages_idempotent {b sD eD : List Nat} {ms : List (List Nat)} {r : List Nat}
    (h : frame_messages b sD eD = some (ms, r)) :
    frame_messages r sD eD = some ([], r) := by
  have hstop : frameStep r sD eD = none := frameLoop_stop h
  simp only [frame_messages, frameLoop, hstop]

theorem frame_messages_idempotent_witness :
    frame_messages [7] [170, 85] [13, 10] = some ([], [7]) :=
  frame_messages_idempotent
    (show frame_messages [170, 85, 1, 13, 10, 7] [170, 85] [13, 10] =
      some ([[170, 85, 1, 13, 10]], [7]) by decide)

/-! ## Hex parsing (`parse_hex_bytes` in `src/app/state.rs`)

Rust strings are embedded as `List Char`. -/

/-- `str::split_whitespace` worker: split on whitespace characters, skipping
empty fragments; `cur` holds the current token reversed. -/
def splitWhitespaceAux : List Char → List Char → List (List Char)
  | [], [] => []
  | [], cur => [cur.reverse]
  | c :: rest, cur =>
    if c.isWhitespace then
      if cur = [] then splitWhitespaceAux rest []
      else cur.reverse :: splitWhitespaceAux rest []
    else splitWhitespaceAux rest (c :: cur)

/-- `str::split_whitespace`: the whitespace-separated tokens of a string. -/
def splitWhitespace (s : List Char) : List (List Char) := splitWhitespaceAux s []

/-- `str::trim_start_matches` specialised to a two-character pattern (the
source only uses the patterns `0x` and `0X`): repeatedly strip the leading
pair while it matches. -/
def trimStartPairs (c1 c2 : Char) : List Char → List Char
  | a :: b :: rest => if a = c1 ∧ b = c2 then trimStartPairs c1 c2 rest else a :: b :: rest
  | s => s

/-- `token.trim_start_matches("0x").trim_start_matches("0X")` from
`parse_hex_bytes`. -/
def cleanToken (t : List Char) : List Char :=
  trimStartPairs '0' 'X' (trimStartPairs '0' 'x' t)

/-- `char::to_digit(16)`: the value of a hexadecimal digit. -/
def toDigit16 (c : Char) : Option Nat :=
  if '0' ≤ c ∧ c ≤ '9' then some (c.toNat - '0'.toNat)
  else if 'a' ≤ c ∧ c ≤ 'f' then some (c.toNat - 'a'.toNat + 10)
  else if 'A' ≤ c ∧ c ≤ 'F' then some (c.toNat - 'A'.toNat + 10)
  else none

/-- The error kinds of Rust's `ParseIntError` reachable from
`u8::from_str_radix`. -/
inductive IntErrorKind where
  | empty
  | invalidDigit
  | posOverflow
deriving DecidableEq

/-- The `Display` text of each `ParseIntError` kind. -/
def intErrorMsg : IntErrorKind → List Char
  | IntErrorKind.empty => "cannot parse integer from empty string".toList
  | IntErrorKind.invalidDigit => "invalid digit found in string".toList
  | IntErrorKind.posOverflow => "number too large to fit in target type".toList

/-- `u8::from_str_radix(s, 16)`: an optional leading sign (`+` accepted, a
bare sign or an empty string rejected), then hex digits accumulated with
overflow checks against 255. -/
def fromStrRadix16u8 (s : List Char) : Except IntErrorKind Nat :=
  match s with
  | [] => Except.error IntErrorKind.empty
  | c :: rest =>
    if (c = '+' ∨ c = '-') ∧ rest = [] then Except.error IntErrorKind.invalidDigit
    else
      (if c = '+' then rest else c :: rest).foldl
        (fun acc ch =>
          match acc with
          | Except.error e => Except.error e
          | Except.ok a =>
            match toDigit16 ch with
            | none => Except.error IntErrorKind.invalidDigit
            | some d =>
              if 255 < a * 16 then Except.error IntErrorKind.posOverflow
              else if 255 < a * 16 + d then Except.error IntErrorKind.posOverflow
              else Except.ok (a * 16 + d))
        (Except.ok 0)

/-- The error string built by `parse_hex_bytes`:
`format!("invalid hex '{token}': {e}")`. -/
def hexErrMsg (token : List Char) (k : IntErrorKind) : List Char :=
  "invalid hex \x27".toList ++ token ++ "\x27: ".toList ++ intErrorMsg k

/-- The token loop of `parse_hex_bytes`: clean each token, skip tokens that
become empty, fail on the first token `u8::from_str_radix` rejects, otherwise
collect the byte values in order. -/
def parseHexTokens : List (List Char) → Except (List Char) (List Nat)
  | [] => Except.ok []
  | t :: ts =>
    if cleanToken t = [] then parseHexTokens ts
    else
      match fromStrRadix16u8 (cleanToken t) with
      | Except.error e => Except.error (hexErrMsg t e)
      | Except.ok b => (parseHexTokens ts).map (fun bs => b :: bs)

/-- `parse_hex_bytes` of `src/app/state.rs`. -/
def parse_hex_bytes (input : List Char) : Except (List Char) (List Nat) :=
  parseHexTokens (splitWhitespace input)

/-- Whether `parse_hex_bytes` rejects this token: it survives cleaning
non-empty and `u8::from_str_radix` fails on the cleaned remainder. -/
def badHexToken (t : List Char) : Bool :=
  decide (cleanToken t ≠ []) &&
    (match fromStrRadix16u8 (cleanToken t) with
      | Except.error _ => true
      | Except.ok _ => false)

/-! ### Characterisation of `parse_hex_bytes` -/

theorem parseHexTokens_error_iff (ts : List (List Char)) :
    (∃ e, parseHexTokens ts = Except.error e) ↔ ∃ t ∈ ts, badHexToken t = true := by
  induction ts with
  | nil => simp [parseHexTokens]
  | cons t ts ih =>
    by_cases hc : cleanToken t = []
    · have hbad : badHexToken t = false := by simp [badHexToken, hc]
      simp only [parseHexTokens, hc, if_true]
      rw [ih]
      constructor
      · rintro ⟨u, hu, hbu⟩
        exact ⟨u, List.mem_cons_of_mem _ hu, hbu⟩
      · rintro ⟨u, hu, hbu⟩
        rcases List.mem_cons.mp hu with rfl | hu'
        · rw [hbad] at hbu
          cases hbu
        · exact ⟨u, hu', hbu⟩
    · cases hfr : fromStrRadix16u8 (cleanToken t) with
      | error e0 =>
        have hbad : badHexToken t = true := by simp [badHexToken, hc, hfr]
        simp only [parseHexTokens, if_neg hc, hfr]
        constructor
        · intro _
          exact ⟨t, List.mem_cons_self t ts, hbad⟩
        · intro _
          exact ⟨hexErrMsg t e0, rfl⟩
      | ok b =>
        have hbad : badHexToken t = false := by simp [badHexToken, hc, hfr]
        simp only [parseHexTokens, if_neg hc, hfr]
        constructor
        · rintro ⟨e, he⟩
          cases hts : parseHexTokens ts with
          | error e1 =>
            obtain ⟨u, hu, hbu⟩ := ih.mp ⟨e1, hts⟩
            exact ⟨u, List.mem_cons_of_mem _ hu, hbu⟩
          | ok bs =>
            rw [hts] at he
            simp [Except.map] at he
        · rintro ⟨u, hu, hbu⟩
          rcases List.mem_cons.mp hu with rfl | hu'
          · rw [hbad] at hbu
            cases hbu
          · obtain ⟨e1, he1⟩ := ih.mpr ⟨u, hu', hbu⟩
            exact ⟨e1, by rw [he1]; rfl⟩

theorem parseHexTokens_first_bad (ts : List (List Char)) (t : List Char)
    (h : ts.find? badHexToken = some t) :
    ∃ k, parseHexTokens ts = Except.error (hexErrMsg t k) := by
  induction ts with
  | nil => simp [List.find?] at h
  | cons t0 ts ih =>
    by_cases hb : badHexToken t0 = true
    · rw [List.find?_cons_of_pos _ hb] at h
      have ht : t0 = t := Option.some.inj h
      subst ht
      have hc : cleanToken t0 ≠ [] := by
        intro hcc
        simp [badHexToken, hcc] at hb
      cases hfr : fromStrRadix16u8 (cleanToken t0) with
      | error e0 => exact ⟨e0, by simp [parseHexTokens, if_neg hc, hfr]⟩
      | ok b =>
        exfalso
        simp [badHexToken, hc, hfr] at hb
    · rw [List.find?_cons_of_neg _ (by simpa using hb)] at h
      obtain ⟨k, hk⟩ := ih h
      refine ⟨k, ?_⟩
      by_cases hc : cleanToken t0 = []
      · simp only [parseHexTokens, if_pos hc]
        exact hk
      · cases hfr : fromStrRadix16u8 (cleanToken t0) with
        | error e0 =>
          exfalso
          apply hb
          simp [badHexToken, hc, hfr]
        | ok b =>
          simp only [parseHexTokens, if_neg hc, hfr, hk]
          rfl

/-! ### Claim-side definition for C6 (follows the claim's words, not the source) -/

/-- Follows the claim's words, for comparison with the code: strip at most one
optional `0x`/`0X` prefix from a token. -/
def stripOneHexPrefix : List Char → List Char
  | '0' :: 'x' :: rest => rest
  | '0' :: 'X' :: rest => rest
  | s => s

/-- Follows the claim's words, for comparison with the code: a token is a
valid base-16 byte when, after one optional prefix strip, it is a non-empty
string of hex digits whose value is at most 255. -/
def claimValidHexToken (t : List Char) : Bool :=
  decide (stripOneHexPrefix t ≠ []) &&
    (stripOneHexPrefix t).all (fun ch => (toDigit16 ch).isSome) &&
    decide ((stripOneHexPrefix t).foldl (fun a ch => a * 16 + (toDigit16 ch).getD 0) 0 ≤ 255)

/-! ## Claim theorems about `parse_hex_bytes` -/

/-- C6 (counterexample): the input `0x` consists of one token that is not a
valid base-16 byte (after the optional prefix strip nothing remains), so the
claim requires an error naming it; the code instead returns `Ok []`: a token
that prefix-stripping empties is silently skipped, not reported. -/
theorem parse_hex_bytes_cex :
    claimValidHexToken "0x".toList = false ∧ parse_hex_bytes "0x".toList = Except.ok [] :=
  ⟨rfl, rfl⟩

/-- C6 (amended): `parse_hex_bytes` splits its input on whitespace and strips
all leading `0x` repetitions and then all leading `0X` repetitions from each
token; a token that becomes empty after stripping is silently skipped rather
than reported; the call returns `Err` iff some remaining token fails to parse
as a base-16 value at most 255 under Rust `u8::from_str_radix` (which also
accepts one leading `+`), and the error message names the first such token;
empty input returns `Ok []`, not an error. -/
theorem parse_hex_bytes_spec :
    parse_hex_bytes [] = Except.ok [] ∧
    (∀ input, (∃ e, parse_hex_bytes input = Except.error e) ↔
      ∃ t ∈ splitWhitespace input, badHexToken t = true) ∧
    (∀ input t, (splitWhitespace input).find? badHexToken = some t →
      ∃ k, parse_hex_bytes input = Except.error (hexErrMsg t k)) :=
  ⟨rfl, fun input => parseHexTokens_error_iff (splitWhitespace input),
    fun input t h => parseHexTokens_first_bad (splitWhitespace input) t h⟩

theorem parse_hex_bytes_spec_witness :
    parse_hex_bytes "FE ED FA CE".toList = Except.ok [254, 237, 250, 206] ∧
    (∃ k, parse_hex_bytes "GG".toList = Except.error (hexErrMsg "GG".toList k)) :=
  ⟨rfl, parse_hex_bytes_spec.2.2 "GG".toList "GG".toList (by decide)⟩

/-! ## Index/range parsing (`parse_index_range` in `src/app/state.rs`) -/

/-- `str::trim`: remove leading and trailing whitespace. -/
def trimChars (s : List Char) : List Char :=
  ((s.dropWhile Char.isWhitespace).reverse.dropWhile Char.isWhitespace).reverse

/-- `str::split_once(char)`: split at the first occurrence of `c`. -/
def splitOnceChar (c : Char) : List Char → Option (List Char × List Char)
  | [] => none
  | x :: rest =>
    if x = c then some ([], rest)
    else (splitOnceChar c rest).map (fun p => (x :: p.1, p.2))

/-- `str::split_once(&str)`: split at the first occurrence of `pat` (the
source only uses the two-character pattern `..`). -/
def splitOnceStr (pat : List Char) : List Char → Option (List Char × List Char)
  | [] => if pat = [] then some ([], []) else none
  | x :: rest =>
    if pat.isPrefixOf (x :: rest) then some ([], (x :: rest).drop pat.length)
    else (splitOnceStr pat rest).map (fun p => (x :: p.1, p.2))

/-- `char::to_digit(10)`. -/
def toDigit10 (c : Char) : Option Nat :=
  if '0' ≤ c ∧ c ≤ '9' then some (c.toNat - '0'.toNat) else none

/-- `usize::MAX` on a 64-bit target. -/
def USIZE_MAX : Nat := 2 ^ 64 - 1

/-- `str::parse::<usize>()` (base 10, one optional leading `+` accepted, a
bare sign or empty string rejected, overflow checked against `usize::MAX`);
the source only observes success or failure plus the value. -/
def parseUsize (s : List Char) : Option Nat :=
  match s with
  | [] => none
  | c :: rest =>
    if (c = '+' ∨ c = '-') ∧ rest = [] then none
    else
      (if c = '+' then rest else c :: rest).foldl
        (fun acc ch =>
          match acc with
          | none => none
          | some a =>
            match toDigit10 ch with
            | none => none
            | some d =>
              if USIZE_MAX < a * 10 then none
              else if USIZE_MAX < a * 10 + d then none
              else some (a * 10 + d))
        (some 0)

/-- `parse_index_range` of `src/app/state.rs`: trim; empty input rejected;
try `a-b` (split at the first `-`), else a single unsigned integer `n` read
as `(n, n)`, else `a..b`; inside the dash grammar a side that fails to parse
aborts with `None` (the `?` operator) instead of falling through. -/
def parse_index_range (input : List Char) : Option (Nat × Nat) :=
  let s := trimChars input
  if s = [] then none
  else
    match splitOnceChar '-' s with
    | some (a, b) =>
      match parseUsize (trimChars a) with
      | none => none
      | some start =>
        match parseUsize (trimChars b) with
        | none => none
        | some e => some (start, e)
    | none =>
      match parseUsize s with
      | some idx => some (idx, idx)
      | none =>
        match splitOnceStr ['.', '.'] s with
        | some (a, b) =>
          match parseUsize (trimChars a) with
          | none => none
          | some start =>
            match parseUsize (trimChars b) with
            | none => none
            | some e => some (start, e)
        | none => none

/-! ## Claim theorems about `parse_index_range` -/

/-- C7 (confirmed): `parse_index_range` trims its input and rejects an empty
remainder; the grammars are tried in the order dash, single integer, `..`;
once the dash grammar matches, a parse failure inside it yields `None`
without falling through to a later grammar (conjunct 2 fixes the result to
the dash grammar alone; the concrete input `1..2-3` would parse under the
`..` grammar yet yields `None`); the returned pair is returned as written,
never reordered (`5-3` gives `(5, 3)`). -/
theorem parse_index_range_spec :
    (∀ input, trimChars input = [] → parse_index_range input = none) ∧
    (∀ input a b, splitOnceChar '-' (trimChars input) = some (a, b) →
      parse_index_range input =
        match parseUsize (trimChars a), parseUsize (trimChars b) with
        | some x, some y => some (x, y)
        | _, _ => none) ∧
    parse_index_range "7".toList = some (7, 7) ∧
    parse_index_range "10..20".toList = some (10, 20) ∧
    parse_index_range "5-3".toList = some (5, 3) ∧
    parse_index_range "1..2-3".toList = none ∧
    parse_index_range "  ".toList = none := by
  refine ⟨?_, ?_, rfl, rfl, rfl, rfl, rfl⟩
  · intro input h
    simp [parse_index_range, h]
  · intro input a b h
    have hne : trimChars input ≠ [] := by
      intro hx
      rw [hx] at h
      simp [splitOnceChar] at h
    simp only [parse_index_range, if_neg hne, h]
    cases parseUsize (trimChars a) <;> cases parseUsize (trimChars b) <;> rfl

theorem parse_index_range_spec_witness :
    parse_index_range " ".toList = none ∧
    parse_index_range "5-x".toList =
      (match parseUsize (trimChars "5".toList), parseUsize (trimChars "x".toList) with
        | some x, some y => some (x, y)
        | _, _ => none) :=
  ⟨parse_index_range_spec.1 " ".toList (by decide),
    parse_index_range_spec.2.1 "5-x".toList "5".toList "x".toList (by decide)⟩

/-! ## Label classification (`find_message_label` in `src/app/state.rs`) -/

/-- `LabelRule` of `src/app/state.rs`: display name, inclusive byte range,
expected byte value for the slice. -/
structure LabelRule where
  name : List Char
  start_index : Nat
  end_index : Nat
  value : List Nat
deriving DecidableEq

/-- `find_message_label` of `src/app/state.rs`: scan the rules in order; a
rule is considered only when `start <= end && end < message.len()`; the slice
`message[start..=end]` must equal the expected value (the source compares
both lengths and contents, which list equality captures); first match wins. -/
def find_message_label (message : List Nat) : List LabelRule → Option (List Char)
  | [] => none
  | r :: rest =>
    if r.start_index ≤ r.end_index ∧ r.end_index < message.length then
      if (message.drop r.start_index).take (r.end_index + 1 - r.start_index) = r.value then
        some r.name
      else find_message_label message rest
    else find_message_label message rest

/-- The claim's declarative matcher for a label rule, for comparison with the
scan in the source: the range resolves against the message and the slice
equals the expected value exactly. -/
def labelRuleMatches (message : List Nat) (r : LabelRule) : Bool :=
  decide (r.start_index ≤ r.end_index) && decide (r.end_index < message.length) &&
    decide ((message.drop r.start_index).take (r.end_index + 1 - r.start_index) = r.value)

theorem labelRuleMatches_iff (message : List Nat) (r : LabelRule) :
    labelRuleMatches message r = true ↔
      (r.start_index ≤ r.end_index ∧ r.end_index < message.length) ∧
        (message.drop r.start_index).take (r.end_index + 1 - r.start_index) = r.value := by
  simp [labelRuleMatches, and_assoc]

/-! ## Claim theorem about `find_message_label` -/

/-- C8 (confirmed): `find_message_label` returns the name of the first rule
(in declaration order) whose resolvable range yields a slice equal to its
expected value, and `none` when no rule matches; rules whose range does not
resolve (start > end or end >= message length) are silently skipped — this is
exactly `find?` over the declarative matcher.  In particular two identical
rules named `A` and `B` on message `[0x01]` yield `A`, never `B`. -/
theorem find_message_label_spec :
    (∀ message rules, find_message_label message rules =
      (rules.find? (labelRuleMatches message)).map LabelRule.name) ∧
    find_message_label [1]
      [⟨"A".toList, 0, 0, [1]⟩, ⟨"B".toList, 0, 0, [1]⟩] = some "A".toList := by
  constructor
  · intro message rules
    induction rules with
    | nil => rfl
    | cons r rest ih =>
      by_cases h1 : r.start_index ≤ r.end_index ∧ r.end_index < message.length
      · by_cases h2 :
          (message.drop r.start_index).take (r.end_index + 1 - r.start_index) = r.value
        · have hm : labelRuleMatches message r = true :=
            (labelRuleMatches_iff message r).mpr ⟨h1, h2⟩
          rw [List.find?_cons_of_pos _ hm]
          simp [find_message_label, h1, h2]
        · have hm : ¬ labelRuleMatches message r = true := fun hx =>
            h2 ((labelRuleMatches_iff message r).mp hx).2
          rw [List.find?_cons_of_neg _ hm]
          simp only [find_message_label, if_pos h1, if_neg h2]
          exact ih
      · have hm : ¬ labelRuleMatches message r = true := fun hx =>
          h1 ((labelRuleMatches_iff message r).mp hx).1
        rw [List.find?_cons_of_neg _ hm]
        simp only [find_message_label, if_neg h1]
        exact ih
  · rfl

/-! ## Bounded message history (`ByteBusterApp::update` in `src/main.rs`) -/

/-- One framed message entering the history in `ByteBusterApp::update`:
push it, then when `len > max_messages` drain the overflow from the front. -/
def pushMessageBounded (maxM : Nat) (history : List (List Nat)) (msg : List Nat) :
    List (List Nat) :=
  let h := history ++ [msg]
  if maxM < h.length then h.drop (h.length - maxM) else h

/-- One processing pass of `ByteBusterApp::update`: every freshly framed
message is pushed (with eviction) in order. -/
def processFramedMessages (maxM : Nat) (history : List (List Nat))
    (msgs : List (List Nat)) : List (List Nat) :=
  msgs.foldl (pushMessageBounded maxM) history

/-- The history-related fields of `AppState` with their `Default` values from
`src/app/state.rs` (the other fields — connection handles, form strings, UI
state — are outside the engine and are not modelled). -/
structure AppStateHistory where
  received_messages : List (List Nat)
  max_messages : Nat

/-- `AppState::default()` restricted to the history fields. -/
def AppStateHistory.default : AppStateHistory :=
  { received_messages := [], max_messages := 200 }

theorem pushMessageBounded_eq_drop (maxM : Nat) (history : List (List Nat)) (msg : List Nat) :
    pushMessageBounded maxM history msg =
      (history ++ [msg]).drop ((history ++ [msg]).length - maxM) := by
  unfold pushMessageBounded
  by_cases h : maxM < (history ++ [msg]).length
  · rw [if_pos h]
  · rw [if_neg h]
    rw [show (history ++ [msg]).length - maxM = 0 by omega]
    rfl

theorem processFramedMessages_eq_drop (maxM : Nat) :
    ∀ (msgs history : List (List Nat)), history.length ≤ maxM →
      processFramedMessages maxM history msgs =
        (history ++ msgs).drop (history.length + msgs.length - maxM) := by
  intro msgs
  induction msgs with
  | nil =>
    intro history hh
    simp only [processFramedMessages, List.foldl_nil, List.append_nil, List.length_nil]
    rw [show history.length + 0 - maxM = 0 by omega]
    rfl
  | cons m rest ih =>
    intro history hh
    have hpush := pushMessageBounded_eq_drop maxM history m
    have hlen1 : (pushMessageBounded maxM history m).length = min (history.length + 1) maxM := by
      rw [hpush, List.length_drop, List.length_append]
      simp
      omega
    have hle : (pushMessageBounded maxM history m).length ≤ maxM := by omega
    have hih := ih (pushMessageBounded maxM history m) hle
    have hstep : processFramedMessages maxM history (m :: rest)
        = processFramedMessages maxM (pushMessageBounded maxM history m) rest := rfl
    rw [hstep, hih, hpush]
    have hale : (history ++ [m]).length - maxM ≤ (history ++ [m]).length := by omega
    rw [← List.drop_append_of_le_length hale, List.drop_drop, List.length_drop]
    rw [show (history ++ [m]) ++ rest = history ++ m :: rest by simp]
    congr 1
    simp only [List.length_append, List.length_cons, List.length_nil]
    omega

/-! ## Claim theorem about the bounded history -/

/-- C9 (confirmed): starting from any history within the bound (the default
state starts empty with `max_messages = 200`), a processing pass that pushes
each newly framed message in order and drains the overflow from the front
leaves exactly the suffix of `history ++ msgs` that fits the bound: at most
`max_messages` entries remain, the oldest are evicted first, and the most
recent are always retained. -/
theorem history_bounded :
    (∀ maxM (history msgs : List (List Nat)), history.length ≤ maxM →
      processFramedMessages maxM history msgs =
        (history ++ msgs).drop (history.length + msgs.length - maxM) ∧
      (processFramedMessages maxM history msgs).length ≤ maxM) ∧
    AppStateHistory.default.max_messages = 200 ∧
    AppStateHistory.default.received_messages = [] := by
  refine ⟨?_, rfl, rfl⟩
  intro maxM history msgs hh
  have h := processFramedMessages_eq_drop maxM msgs history hh
  refine ⟨h, ?_⟩
  rw [h, List.length_drop, List.length_append]
  omega

theorem history_bounded_witness :
    processFramedMessages 2 [[1]] [[2], [3]] = [[2], [3]] ∧
    (processFramedMessages 2 [[1]] [[2], [3]]).length ≤ 2 := by
  have h := history_bounded.1 2 [[1]] [[2], [3]] (by decide)
  exact ⟨by rw [h.1]; rfl, h.2⟩

/-! ## Suspect rules (`src/app/suspects.rs`)

`check_suspects_for_message` renders the actual bytes via
`String::from_utf8_lossy` and `hex::encode_upper`; both are embedded below so
the comparison and the warning text are faithful. -/

/-- U+FFFD REPLACEMENT CHARACTER, emitted by lossy UTF-8 decoding. -/
def replChar : Char := Char.ofNat 0xFFFD

/-- A UTF-8 continuation byte (`80..BF`). -/
def contOk (b2 : Nat) : Bool := decide (0x80 ≤ b2 ∧ b2 ≤ 0xBF)

/-- Acceptable second byte after a three-byte leader `b` (`E0` requires
`A0..BF`, `ED` requires `80..9F`, otherwise `80..BF`). -/
def utf8Cont3Ok (b b2 : Nat) : Bool :=
  if b = 0xE0 then decide (0xA0 ≤ b2 ∧ b2 ≤ 0xBF)
  else if b = 0xED then decide (0x80 ≤ b2 ∧ b2 ≤ 0x9F)
  else contOk b2

/-- Acceptable second byte after a four-byte leader `b` (`F0` requires
`90..BF`, `F4` requires `80..8F`, otherwise `80..BF`). -/
def utf8Cont4Ok (b b2 : Nat) : Bool :=
  if b = 0xF0 then decide (0x90 ≤ b2 ∧ b2 ≤ 0xBF)
  else if b = 0xF4 then decide (0x80 ≤ b2 ∧ b2 ≤ 0x8F)
  else contOk b2

/-- `String::from_utf8_lossy`: decode UTF-8, replacing each maximal invalid
subsequence with one U+FFFD (substitution of maximal subparts: an invalid
leader or an invalid continuation byte consumes only the valid bytes before
it; a truncated sequence at the end of input yields one replacement). -/
def utf8Lossy : List Nat → List Char
  | [] => []
  | b :: rest =>
    if b < 0x80 then Char.ofNat b :: utf8Lossy rest
    else if 0xC2 ≤ b ∧ b ≤ 0xDF then
      match rest with
      | [] => [replChar]
      | b2 :: rest2 =>
        if contOk b2 then Char.ofNat ((b - 0xC0) * 64 + (b2 - 0x80)) :: utf8Lossy rest2
        else replChar :: utf8Lossy (b2 :: rest2)
    else if 0xE0 ≤ b ∧ b ≤ 0xEF then
      match rest with
      | [] => [replChar]
      | b2 :: rest2 =>
        if utf8Cont3Ok b b2 then
          match rest2 with
          | [] => [replChar]
          | b3 :: rest3 =>
            if contOk b3 then
              Char.ofNat (((b - 0xE0) * 64 + (b2 - 0x80)) * 64 + (b3 - 0x80)) ::
                utf8Lossy rest3
            else replChar :: utf8Lossy (b3 :: rest3)
        else replChar :: utf8Lossy (b2 :: rest2)
    else if 0xF0 ≤ b ∧ b ≤ 0xF4 then
      match rest with
      | [] => [replChar]
      | b2 :: rest2 =>
        if utf8Cont4Ok b b2 then
          match rest2 with
          | [] => [replChar]
          | b3 :: rest3 =>
            if contOk b3 then
              match rest3 with
              | [] => [replChar]
              | b4 :: rest4 =>
                if contOk b4 then
                  Char.ofNat ((((b - 0xF0) * 64 + (b2 - 0x80)) * 64 + (b3 - 0x80)) * 64 +
                    (b4 - 0x80)) :: utf8Lossy rest4
                else replChar :: utf8Lossy (b4 :: rest4)
            else replChar :: utf8Lossy (b3 :: rest3)
        else replChar :: utf8Lossy (b2 :: rest2)
    else replChar :: utf8Lossy rest
termination_by l => l.length
decreasing_by all_goals simp_wf <;> omega

/-- One uppercase hexadecimal digit. -/
def hexDigitUpper (n : Nat) : Char :=
  if n < 10 then Char.ofNat ('0'.toNat + n) else Char.ofNat ('A'.toNat + (n - 10))

/-- `hex::encode_upper`: two uppercase hex digits per byte, no separator. -/
def encode_upper (bs : List Nat) : List Char :=
  bs.foldr (fun b acc => hexDigitUpper (b / 16) :: hexDigitUpper (b % 16) :: acc) []

/-- `ExpectedKind` of `src/app/suspects.rs`. -/
inductive ExpectedKind where
  | text
  | hex
deriving DecidableEq

/-- `Severity` of `src/app/suspects.rs`. -/
inductive Severity where
  | info
  | warning
  | critical
deriving DecidableEq

/-- `WatchTarget` of `src/app/state.rs`. -/
inductive WatchTarget where
  | all
  | label (name : List Char)
deriving DecidableEq

/-- `SuspectRule` of `src/app/suspects.rs`. -/
structure SuspectRule where
  name : List Char
  start_index : Nat
  end_index : Nat
  expected_kind : ExpectedKind
  expected_value : List Char
  target : WatchTarget
  severity : Severity

/-- The `applies` match at the top of the rule loop in
`check_suspects_for_message`. -/
def ruleApplies (target : WatchTarget) (active_label : Option (List Char)) : Bool :=
  match target, active_label with
  | WatchTarget.all, _ => true
  | WatchTarget.label t, some lbl => decide (t = lbl)
  | WatchTarget.label _, none => false

/-- A natural number rendered in decimal for the warning text. -/
def natDigits (n : Nat) : List Char := Nat.toDigits 10 n

/-- The warning string built by `check_suspects_for_message`:
`format!("{}: expected {} at [{}..{}], got {}", ...)` with the expected
representation and the actual bytes rendered according to the rule kind. -/
def warnMsg (r : SuspectRule) (slice : List Nat) : List Char :=
  r.name ++ ": expected ".toList ++
    (match r.expected_kind with
      | ExpectedKind.text => r.expected_value
      | ExpectedKind.hex => "0x".toList ++ r.expected_value) ++
    " at [".toList ++ natDigits r.start_index ++ "..".toList ++ natDigits r.end_index ++
    "], got ".toList ++
    (match r.expected_kind with
      | ExpectedKind.text => utf8Lossy slice
      | ExpectedKind.hex => "0x".toList ++ encode_upper slice)

/-- `check_suspects_for_message` of `src/app/suspects.rs`: for each rule in
order, skip rules that do not apply to the active label, skip rules whose
range does not resolve (`start_index > end_index` or
`end_index >= message.len()`), then compare the slice `message[start..=end]`
with the expectation (UTF-8-lossy text equality for `Text`; byte equality of
the hex-decoded expectation for `Hex`, an unparseable expectation counting as
a non-match) and push a `(severity, text)` warning when the comparison
fails. -/
def check_suspects_for_message (message : List Nat) (active_label : Option (List Char)) :
    List SuspectRule → List (Severity × List Char)
  | [] => []
  | r :: rest =>
    if ruleApplies r.target active_label = true then
      if r.start_index > r.end_index ∨ r.end_index ≥ message.length then
        check_suspects_for_message message active_label rest
      else
        let slice := (message.drop r.start_index).take (r.end_index + 1 - r.start_index)
        let ok : Bool := match r.expected_kind with
          | ExpectedKind.text => decide (utf8Lossy slice = r.expected_value)
          | ExpectedKind.hex =>
            match parse_hex_bytes r.expected_value with
            | Except.ok exp => decide (exp = slice)
            | Except.error _ => false
        if ok then check_suspects_for_message message active_label rest
        else (r.severity, warnMsg r slice) :: check_suspects_for_message message active_label rest
    else check_suspects_for_message message active_label rest

/-! ## Claim theorems about `check_suspects_for_message` -/

/-- C1 (counterexample): an applying `Hex` rule of severity `Critical` whose
range cannot be resolved against the one-byte message `[0x01]`
(`end_index = 5 ≥ 1 = len`) produces NO warning, although the claim requires
a warning carrying the rule's severity for exactly this situation. -/
theorem check_suspects_skips_unresolvable_cex :
    check_suspects_for_message [1] none
      [⟨"R".toList, 0, 5, ExpectedKind.hex, "FF".toList, WatchTarget.all,
        Severity.critical⟩] = [] := rfl

/-- C1 (amended): `check_suspects_for_message` silently skips every rule
whose inclusive byte range cannot be resolved against the message
(`start_index > end_index` or `end_index ≥` message length): no warning of
any severity is emitted for such a rule, whether or not it applies — the same
skip policy as label rules, contrary to the spec's treat-as-mismatch
design. -/
theorem check_suspects_skips_unresolvable (message : List Nat)
    (active_label : Option (List Char)) (r : SuspectRule) (rest : List SuspectRule)
    (h : r.start_index > r.end_index ∨ r.end_index ≥ message.length) :
    check_suspects_for_message message active_label (r :: rest) =
      check_suspects_for_message message active_label rest := by
  cases ha : ruleApplies r.target active_label with
  | false => simp [check_suspects_for_message, ha]
  | true => simp [check_suspects_for_message, ha, h]

theorem check_suspects_skips_unresolvable_witness :
    check_suspects_for_message [1] none
      [⟨"S".toList, 0, 5, ExpectedKind.text, "a".toList, WatchTarget.all,
        Severity.info⟩] =
      check_suspects_for_message [1] none [] :=
  check_suspects_skips_unresolvable [1] none
    ⟨"S".toList, 0, 5, ExpectedKind.text, "a".toList, WatchTarget.all, Severity.info⟩ []
    (Or.inr (by decide))

/-- C10 (confirmed): for an applying `Hex` rule whose range resolves against
the message, an expected value string that fails to parse as hex bytes
always yields a warning carrying the rule's severity, whatever the actual
message bytes are: an unparseable hex expectation never passes as a match. -/
theorem check_suspects_warns_unparseable_hex (message : List Nat)
    (active_label : Option (List Char)) (r : SuspectRule) (rest : List SuspectRule)
    (e : List Char) (happ : ruleApplies r.target active_label = true)
    (hk : r.expected_kind = ExpectedKind.hex)
    (hr : r.start_index ≤ r.end_index) (hlen : r.end_index < message.length)
    (hp : parse_hex_bytes r.expected_value = Except.error e) :
    check_suspects_for_message message active_label (r :: rest) =
      (r.severity,
        warnMsg r ((message.drop r.start_index).take (r.end_index + 1 - r.start_index))) ::
      check_suspects_for_message message active_label rest := by
  have hrange : ¬ (r.start_index > r.end_index ∨ r.end_index ≥ message.length) := by omega
  simp only [check_suspects_for_message, happ, if_true, if_neg hrange, hk, hp]
  rfl

theorem check_suspects_warns_unparseable_hex_witness :
    check_suspects_for_message [1] none
      [⟨"R".toList, 0, 0, ExpectedKind.hex, "GG".toList, WatchTarget.all,
        Severity.warning⟩] =
      [(Severity.warning,
        warnMsg ⟨"R".toList, 0, 0, ExpectedKind.hex, "GG".toList, WatchTarget.all,
          Severity.warning⟩ [1])] :=
  check_suspects_warns_unparseable_hex [1] none
    ⟨"R".toList, 0, 0, ExpectedKind.hex, "GG".toList, WatchTarget.all, Severity.warning⟩ []
    (hexErrMsg "GG".toList IntErrorKind.invalidDigit) rfl rfl (by decide) (by decide) rfl
